import Mathlib

/-!
# Verification of the macOS application index / restore tool (`main.py`)

This file is a shallow embedding of the single source file `main.py` of the
repository `Macos-App-Index`: a script that, in *index mode*, writes a flat
text inventory of installed applications, Homebrew formulae and Homebrew
casks, and, in *restore mode*, parses such a file back and drives
`brew install` over the selected packages.

Strings are modelled as `List Char` (abbreviated `Str`); Python string
primitives (`strip`, `split("\n")`, `startswith`, `in`, `endswith`,
`replace`) are modelled as executable functions on `Str`.  External
effects (the filesystem, subprocesses, the Tkinter GUI) are modelled by
explicit parameters, and the observable behaviour of restore mode is an
explicit trace of `Effect`s, one constructor per `print` / `subprocess.run`
call in the source.
-/

set_option maxHeartbeats 1000000

namespace MacosAppIndex

/-- Strings are modelled as lists of characters. -/
abbrev Str := List Char

/-! ## Python string primitives -/

/-- The whitespace characters stripped by Python's `str.strip()`
(the ASCII ones; exotic Unicode whitespace does not occur in this program). -/
def pyIsSpace (c : Char) : Bool :=
  c = ' ' || c = '\t' || c = '\n' || c = '\r' || c = '\x0b' || c = '\x0c'

/-- Python `s.strip()`: drop whitespace from both ends. -/
def pyStrip (s : Str) : Str :=
  ((s.dropWhile pyIsSpace).reverse.dropWhile pyIsSpace).reverse

/-- Python `s.split("\n")`.  Note `pySplitNl [] = [[]]`, matching
`"".split("\n") == [""]` in Python. -/
def pySplitNl : Str → List Str
  | [] => [[]]
  | c :: rest =>
    if c = '\n' then [] :: pySplitNl rest
    else
      match pySplitNl rest with
      | [] => [[c]]
      | l :: ls => (c :: l) :: ls

/-- Python `needle in hay` (substring containment). -/
def containsSub (needle : Str) : Str → Bool
  | [] => needle.isPrefixOf []
  | c :: rest => needle.isPrefixOf (c :: rest) || containsSub needle rest

/-- Python string comparison (`<` on strings, lexicographic by code point),
as used by `sorted`. -/
def strLt : Str → Str → Bool
  | [], [] => false
  | [], _ :: _ => true
  | _ :: _, [] => false
  | a :: as, b :: bs => if a < b then true else if b < a then false else strLt as bs

/-! ## Inventory Collector (`get_installed_apps`, `get_brew_packages`,
`get_brew_casks`) -/

/-- Python `app.replace(".app", "")`: remove every (non-overlapping,
left-to-right) occurrence of `".app"`. -/
def stripAppAll : Str → Str
  | '.' :: 'a' :: 'p' :: 'p' :: rest => stripAppAll rest
  | c :: rest => c :: stripAppAll rest
  | [] => []

/-- Does `".app"` occur (as a contiguous substring) somewhere in `s`?  Used to
state when `stripAppAll` coincides with plain suffix removal. -/
def containsApp : Str → Bool
  | '.' :: 'a' :: 'p' :: 'p' :: _ => true
  | _ :: rest => containsApp rest
  | [] => false

/-- Python `app.endswith(".app")`. -/
def endsWithApp (s : Str) : Bool :=
  (".app".toList).isSuffixOf s

/-- The per-entry step of the collector loop (`main.py` lines 23–25): an entry
qualifies iff its name ends with `".app"`, and is then mapped through
`replace(".app", "")`. -/
def appEntryName (entry : Str) : Option Str :=
  if endsWithApp entry then some (stripAppAll entry) else none

/-- The body of the directory scan: the names contributed by one directory
listing (`main.py` lines 23–25). -/
def collectApps (entries : List Str) : List Str :=
  entries.filterMap appEntryName

/-- Result of one `subprocess.run(["brew", "list", ...])` call:
the tool is absent (`FileNotFoundError`), the command exits non-zero
(`CalledProcessError`), or it succeeds with a captured stdout. -/
inductive BrewResult where
  | missing
  | nonzero
  | ok (stdout : Str)
deriving DecidableEq

/-- `get_brew_packages` (`main.py` lines 28–36): on success,
`result.stdout.strip().split("\n")`; on either exception, `[]`. -/
def get_brew_packages : BrewResult → List Str
  | .ok out => pySplitNl (pyStrip out)
  | .missing => []
  | .nonzero => []

/-- `get_brew_casks` (`main.py` lines 38–46): identical body, run for the
cask listing command. -/
def get_brew_casks : BrewResult → List Str
  | .ok out => pySplitNl (pyStrip out)
  | .missing => []
  | .nonzero => []

/-! ## Report Serializer (`run_index_mode`, `main.py` lines 59–79) -/

def hdrApps : Str := "### macOS Installed Applications ###".toList
def hdrFormulae : Str := "### Homebrew Formulae ###".toList
def hdrCasks : Str := "### Homebrew Casks ###".toList

def sentApps : Str := "No applications found in /Applications or ~/Applications.".toList
def sentFormulae : Str := "Homebrew not found or no formulae installed.".toList
def sentCasks : Str := "Homebrew not found or no casks installed.".toList

/-- One section body: the list of names if non-empty (Python truthiness of the
list), else the single sentinel line. -/
def sectionLines (names : List Str) (sentinel : Str) : List Str :=
  if names = [] then [sentinel] else names

/-- The sequence of lines written by `run_index_mode` (the writes
`f.write("\n### ... ###\n")` contribute an empty line followed by a header
line). -/
def indexLines (apps formulae casks : List Str) : List Str :=
  hdrApps ::
    (sectionLines apps sentApps ++
      ([] :: hdrFormulae ::
        (sectionLines formulae sentFormulae ++
          ([] :: hdrCasks :: sectionLines casks sentCasks))))

/-- The file content produced by `run_index_mode`: every line is written with
a trailing newline. -/
def indexContent (apps formulae casks : List Str) : Str :=
  ((indexLines apps formulae casks).map (· ++ ['\n'])).flatten

/-! ## Report Parser (`run_restore_mode`, `main.py` lines 144–171) -/

inductive Sect where
  | apps
  | formulae
  | casks
deriving DecidableEq

/-- The three lists accumulated by the parser. -/
structure Triple where
  apps : List Str
  formulae : List Str
  casks : List Str
deriving DecidableEq

def Triple.empty : Triple := ⟨[], [], []⟩

/-- Componentwise append. -/
def Triple.app (t u : Triple) : Triple :=
  ⟨t.apps ++ u.apps, t.formulae ++ u.formulae, t.casks ++ u.casks⟩

/-- A triple holding `v` at section `s` and nothing elsewhere. -/
def Triple.onlyAt (s : Sect) (v : List Str) : Triple :=
  match s with
  | .apps => ⟨v, [], []⟩
  | .formulae => ⟨[], v, []⟩
  | .casks => ⟨[], [], v⟩

/-- Prepend a value onto the component of section `s`. -/
def addTo (s : Sect) (l : Str) (t : Triple) : Triple :=
  match s with
  | .apps => ⟨l :: t.apps, t.formulae, t.casks⟩
  | .formulae => ⟨t.apps, l :: t.formulae, t.casks⟩
  | .casks => ⟨t.apps, t.formulae, l :: t.casks⟩

/-- Section switching on a `###` line (`main.py` lines 156–163): substring
match against the three section titles, in order; an unrecognized header
leaves the current section unchanged. -/
def sectOfHeader (l : Str) (cur : Option Sect) : Option Sect :=
  if containsSub ("macOS Installed Applications".toList) l then some .apps
  else if containsSub ("Homebrew Formulae".toList) l then some .formulae
  else if containsSub ("Homebrew Casks".toList) l then some .casks
  else cur

/-- The sentinel test in the parser (`main.py` line 165):
`line.startswith("No ") or line.startswith("Homebrew not found")`. -/
def isSentinel (l : Str) : Bool :=
  ("No ".toList).isPrefixOf l || ("Homebrew not found".toList).isPrefixOf l

/-- The header marker prefix `"###"` tested by `line.startswith("###")`. -/
def hdrMark : Str := ['#', '#', '#']

/-- One iteration of the parser loop, given the current section and the raw
line: returns the next section and an optional `(section, value)` to append. -/
def parseStep (sect : Option Sect) (line : Str) : Option Sect × Option (Sect × Str) :=
  let l := pyStrip line
  if l = [] then (sect, none)
  else if hdrMark.isPrefixOf l then (sectOfHeader l sect, none)
  else
    match sect with
    | none => (none, none)
    | some s => if isSentinel l then (sect, none) else (sect, some (s, l))

/-- The parser loop over a list of raw lines, returning the accumulated
triple and the final section state. -/
def parseRun : List Str → Option Sect → Triple × Option Sect
  | [], sect => (Triple.empty, sect)
  | line :: rest, sect =>
    (match (parseStep sect line).2 with
     | none => (parseRun rest (parseStep sect line).1).1
     | some (s, l) => addTo s l (parseRun rest (parseStep sect line).1).1,
     (parseRun rest (parseStep sect line).1).2)

/-- Parse a whole file content: split on newlines (`for line in f` yields the
same stripped non-empty lines) and run the loop from section `none`. -/
def parseContent (content : Str) : Triple :=
  (parseRun (pySplitNl content) none).1

/-! ## Selection Gate (`select_items_with_tkinter`, `main.py` lines 83–134) -/

/-- `select_items_with_tkinter`.  `tk` models `TKINTER_AVAILABLE`; the human's
final checkbox states are modelled by `keep : Nat → Bool` over row indices
(every box starts checked; `keep` is the state at confirmation time).  When
Tkinter is unavailable or the candidate list is empty the input is returned
unchanged (`main.py` lines 88–89); otherwise the result is the sublist of
items whose checkbox is still checked. -/
def select_items_with_tkinter (tk : Bool) (keep : Nat → Bool)
    (_title : Str) (items : List Str) : List Str :=
  if !tk || items = [] then items
  else (items.enum.filter (fun p => keep p.1)).map (·.2)

/-! ## Restore Executor (`run_restore_mode`, `main.py` lines 136–214) -/

/-- Result of one `subprocess.run(["brew", "install", ...])` call. -/
inductive InstallOutcome where
  | ok
  | fail
  | missing
deriving DecidableEq

/-- One observable effect of restore mode: one constructor per `print` call /
`subprocess.run` invocation in the source.  The three consecutive header
prints of the manual-application block together with its per-app lines are
modelled as the single effect `printManualApps` carrying the echoed names. -/
inductive Effect where
  | printFileNotFound (path : Str)
  | printParsing (path : Str)
  | printTkNote
  | printFormulaeHeader
  | printInstalling (cask : Bool) (name : Str)
  | brewInstall (cask : Bool) (name : Str)
  | printFailed (cask : Bool) (name : Str)
  | printBrewMissing
  | printCasksHeader
  | printManualApps (names : List Str)
  | printComplete
deriving DecidableEq

/-- The install loop body (`main.py` lines 185–193 for formulae, 197–205 for
casks): print, attempt the install; on `CalledProcessError` log and continue;
on `FileNotFoundError` print the brew-missing error and abort (the returned
flag records that the enclosing function `return`ed). -/
def installLoop (inst : Str → InstallOutcome) (ck : Bool) : List Str → List Effect × Bool
  | [] => ([], false)
  | x :: rest =>
    match inst x with
    | .ok =>
      let r := installLoop inst ck rest
      (.printInstalling ck x :: .brewInstall ck x :: r.1, r.2)
    | .fail =>
      let r := installLoop inst ck rest
      (.printInstalling ck x :: .brewInstall ck x :: .printFailed ck x :: r.1, r.2)
    | .missing => ([.printInstalling ck x, .brewInstall ck x, .printBrewMissing], true)

/-- The ambient environment of one `run_restore_mode` call: whether the path
is a regular file, the file's content, Tkinter availability, the human's
selections, and the outcome of each install attempt. -/
structure RestoreEnv where
  isfile : Bool
  content : Str
  tk : Bool
  keepF : Nat → Bool
  keepC : Nat → Bool
  installF : Str → InstallOutcome
  installC : Str → InstallOutcome

def titleFormulae : Str := "Select Homebrew Formulae to install".toList
def titleCasks : Str := "Select Homebrew Casks to install".toList

/-- The selection step for formulae (`main.py` lines 174–176). -/
def selectedFormulae (env : RestoreEnv) (fs : List Str) : List Str :=
  if env.tk then
    (if fs ≠ [] then select_items_with_tkinter env.tk env.keepF titleFormulae fs else fs)
  else fs

/-- The selection step for casks (`main.py` lines 177–178). -/
def selectedCasks (env : RestoreEnv) (cs : List Str) : List Str :=
  if env.tk then
    (if cs ≠ [] then select_items_with_tkinter env.tk env.keepC titleCasks cs else cs)
  else cs

/-- The advisory note printed when Tkinter is unavailable
(`main.py` lines 179–181). -/
def noteEffects (env : RestoreEnv) (fs cs : List Str) : List Effect :=
  if env.tk = false ∧ (fs ≠ [] ∨ cs ≠ []) then [.printTkNote] else []

/-- The formula batch (`main.py` lines 183–193): header plus loop when the
selected list is non-empty. -/
def formulaBatch (env : RestoreEnv) (fs : List Str) : List Effect × Bool :=
  if fs = [] then ([], false)
  else
    let r := installLoop env.installF false fs
    (.printFormulaeHeader :: r.1, r.2)

/-- The cask batch (`main.py` lines 195–205). -/
def caskBatch (env : RestoreEnv) (cs : List Str) : List Effect × Bool :=
  if cs = [] then ([], false)
  else
    let r := installLoop env.installC true cs
    (.printCasksHeader :: r.1, r.2)

/-- The manual-application echo (`main.py` lines 207–212). -/
def manualEffects (apps : List Str) : List Effect :=
  if apps = [] then [] else [.printManualApps apps]

/-- The trace of restore mode after the file-existence check has passed
(`main.py` lines 144–214).  A `true` abort flag from a batch models the
`return` inside its `except FileNotFoundError` handler: everything after
it — the other batch, the manual-application echo and the completion
message — is skipped. -/
def restoreBody (env : RestoreEnv) (filepath : Str) : List Effect :=
  Effect.printParsing filepath ::
    (noteEffects env (parseContent env.content).formulae (parseContent env.content).casks ++
      (formulaBatch env (selectedFormulae env (parseContent env.content).formulae)).1 ++
      (if (formulaBatch env (selectedFormulae env (parseContent env.content).formulae)).2 then []
       else
         (caskBatch env (selectedCasks env (parseContent env.content).casks)).1 ++
           (if (caskBatch env (selectedCasks env (parseContent env.content).casks)).2 then []
            else manualEffects (parseContent env.content).apps ++ [Effect.printComplete])))

/-- `run_restore_mode` (`main.py` lines 136–214) as an effect trace. -/
def run_restore_mode (env : RestoreEnv) (filepath : Str) : List Effect :=
  if env.isfile = false then [.printFileNotFound filepath]
  else restoreBody env filepath

/-- Is this effect an install invocation
(`subprocess.run(["brew", "install", ...])` attempt)? -/
def isInstallEffect : Effect → Bool
  | .brewInstall _ _ => true
  | _ => false

/-- The install invocations contained in a trace. -/
def installsOf (es : List Effect) : List Effect :=
  es.filter isInstallEffect

/-! ## Infrastructure lemmas -/

theorem Triple.empty_app (t : Triple) : Triple.empty.app t = t := by
  cases t; simp [Triple.app, Triple.empty]

theorem addTo_app (s : Sect) (l : Str) (t u : Triple) :
    addTo s l (t.app u) = (addTo s l t).app u := by
  cases s <;> simp [addTo, Triple.app]

theorem pySplitNl_line (l rest : Str) (h : '\n' ∉ l) :
    pySplitNl (l ++ '\n' :: rest) = l :: pySplitNl rest := by
  induction l with
  | nil => simp [pySplitNl]
  | cons c l ih =>
    have hc : c ≠ '\n' := fun e => h (by simp [e])
    have hl : '\n' ∉ l := fun m => h (by simp [m])
    simp [pySplitNl, hc, ih hl]

theorem pySplitNl_flatten (lines : List Str) (h : ∀ l ∈ lines, '\n' ∉ l) :
    pySplitNl ((lines.map (· ++ ['\n'])).flatten) = lines ++ [[]] := by
  induction lines with
  | nil => simp [pySplitNl]
  | cons l ls ih =>
    have hl : '\n' ∉ l := h l (by simp)
    have hls : ∀ x ∈ ls, '\n' ∉ x := fun x hx => h x (by simp [hx])
    simp only [List.map_cons, List.flatten_cons, List.append_assoc, List.singleton_append]
    rw [pySplitNl_line _ _ hl, ih hls]
    simp

theorem parseRun_cons (line : Str) (rest : List Str) (sect : Option Sect) :
    parseRun (line :: rest) sect =
      (match (parseStep sect line).2 with
       | none => (parseRun rest (parseStep sect line).1).1
       | some (s, l) => addTo s l (parseRun rest (parseStep sect line).1).1,
       (parseRun rest (parseStep sect line).1).2) := rfl

theorem parseRun_append (xs ys : List Str) (sect : Option Sect) :
    parseRun (xs ++ ys) sect =
      ((parseRun xs sect).1.app (parseRun ys (parseRun xs sect).2).1,
       (parseRun ys (parseRun xs sect).2).2) := by
  induction xs generalizing sect with
  | nil => simp [parseRun, Triple.empty_app]
  | cons line xs ih =>
    rw [List.cons_append, parseRun_cons, parseRun_cons, ih]
    cases (parseStep sect line).2 with
    | none => rfl
    | some p =>
      cases p with
      | mk s l => simp [addTo_app]

/-- The values a run of non-header lines contributes (to whatever the current
section is): stripped, with blank lines and sentinel lines dropped. -/
def blockVals (ls : List Str) : List Str :=
  ls.filterMap (fun n =>
    if pyStrip n = [] then none
    else if isSentinel (pyStrip n) then none
    else some (pyStrip n))

theorem Triple.onlyAt_nil (s : Sect) : Triple.onlyAt s [] = Triple.empty := by
  cases s <;> rfl

theorem addTo_onlyAt (s : Sect) (l : Str) (v : List Str) :
    addTo s l (Triple.onlyAt s v) = Triple.onlyAt s (l :: v) := by
  cases s <;> rfl

/-- Running the parser over a block of lines none of which (after stripping)
starts with `###`: the section never changes, and exactly the block's
non-blank, non-sentinel stripped lines are appended to it. -/
theorem parseRun_block (s : Sect) (ls : List Str)
    (h : ∀ n ∈ ls, ¬ (hdrMark <+: pyStrip n)) :
    parseRun ls (some s) = (Triple.onlyAt s (blockVals ls), some s) := by
  induction ls with
  | nil => simp [parseRun, blockVals, Triple.onlyAt_nil]
  | cons n rest ih =>
    have hn := h n (by simp)
    have hrest : ∀ x ∈ rest, ¬ (hdrMark <+: pyStrip x) :=
      fun x hx => h x (by simp [hx])
    by_cases h0 : pyStrip n = []
    · simp [parseRun, parseStep, h0, blockVals, ih hrest]
    · by_cases hs : isSentinel (pyStrip n) = true
      · simp [parseRun, parseStep, h0, hn, hs, blockVals, ih hrest]
      · simp only [Bool.not_eq_true] at hs
        simp [parseRun, parseStep, h0, hn, hs, blockVals, ih hrest, addTo_onlyAt]

theorem parseStep_blank (sect : Option Sect) : parseStep sect [] = (sect, none) := rfl

theorem parseStep_hdrApps (sect : Option Sect) : parseStep sect hdrApps = (some .apps, none) := rfl

theorem parseStep_hdrFormulae (sect : Option Sect) :
    parseStep sect hdrFormulae = (some .formulae, none) := rfl

theorem parseStep_hdrCasks (sect : Option Sect) :
    parseStep sect hdrCasks = (some .casks, none) := rfl

theorem parseRun_step_none (line : Str) (rest : List Str) (sect sect' : Option Sect)
    (h : parseStep sect line = (sect', none)) :
    parseRun (line :: rest) sect = parseRun rest sect' := by
  rw [parseRun_cons, h]


/-- Well-behavedness of one line for the writer/parser round trip: it has no
embedded newline and, once stripped, does not start with the header marker. -/
def LineOk (n : Str) : Prop := '\n' ∉ n ∧ ¬ (hdrMark <+: pyStrip n)

theorem lineOk_sentApps : LineOk sentApps := by constructor <;> decide
theorem lineOk_sentFormulae : LineOk sentFormulae := by constructor <;> decide
theorem lineOk_sentCasks : LineOk sentCasks := by constructor <;> decide

theorem sectionLines_lineOk (names : List Str) (sentinel : Str)
    (hs : LineOk sentinel) (h : ∀ n ∈ names, LineOk n) :
    ∀ n ∈ sectionLines names sentinel, LineOk n := by
  intro n hn
  by_cases hne : names = []
  · simp [sectionLines, hne] at hn
    exact hn ▸ hs
  · rw [sectionLines, if_neg hne] at hn
    exact h n hn

theorem parse_index (a f c : List Str)
    (ha : ∀ n ∈ a, LineOk n) (hf : ∀ n ∈ f, LineOk n) (hc : ∀ n ∈ c, LineOk n) :
    parseContent (indexContent a f c) =
      ⟨blockVals (sectionLines a sentApps),
       blockVals (sectionLines f sentFormulae),
       blockVals (sectionLines c sentCasks)⟩ := by
  have hLa := sectionLines_lineOk a sentApps lineOk_sentApps ha
  have hLf := sectionLines_lineOk f sentFormulae lineOk_sentFormulae hf
  have hLc := sectionLines_lineOk c sentCasks lineOk_sentCasks hc
  have hnl : ∀ l ∈ indexLines a f c, '\n' ∉ l := by
    intro l hl
    simp only [indexLines, List.mem_cons, List.mem_append] at hl
    rcases hl with h | h | h | h | h | h | h | h
    · subst h; decide
    · exact (hLa l h).1
    · subst h; simp
    · subst h; decide
    · exact (hLf l h).1
    · subst h; simp
    · subst h; decide
    · exact (hLc l h).1
  show (parseRun (pySplitNl (indexContent a f c)) none).1 = _
  rw [indexContent, pySplitNl_flatten _ hnl, indexLines]
  simp only [List.cons_append, List.append_assoc]
  rw [parseRun_step_none _ _ _ _ (parseStep_hdrApps none)]
  rw [parseRun_append, parseRun_block _ _ (fun n hn => (hLa n hn).2)]
  rw [parseRun_step_none _ _ _ _ (parseStep_blank _)]
  rw [parseRun_step_none _ _ _ _ (parseStep_hdrFormulae _)]
  rw [parseRun_append, parseRun_block _ _ (fun n hn => (hLf n hn).2)]
  rw [parseRun_step_none _ _ _ _ (parseStep_blank _)]
  rw [parseRun_step_none _ _ _ _ (parseStep_hdrCasks _)]
  have hC : ∀ n ∈ sectionLines c sentCasks ++ [[]], ¬ (hdrMark <+: pyStrip n) := by
    intro n hn
    rcases List.mem_append.1 hn with h | h
    · exact (hLc n h).2
    · simp at h; subst h; decide
  rw [parseRun_block _ _ hC]
  have h0 : blockVals (sectionLines c sentCasks ++ [[]]) = blockVals (sectionLines c sentCasks) := by
    simp only [blockVals, List.filterMap_append]
    have : pyStrip [] = [] := rfl
    simp [this]
  rw [h0]
  simp [Triple.app, Triple.onlyAt]

theorem blockVals_cons (n : Str) (rest : List Str) :
    blockVals (n :: rest) =
      (if pyStrip n = [] then blockVals rest
       else if isSentinel (pyStrip n) then blockVals rest
       else pyStrip n :: blockVals rest) := by
  by_cases h0 : pyStrip n = []
  · simp [blockVals, List.filterMap_cons, h0]
  · by_cases hs : isSentinel (pyStrip n) = true
    · simp [blockVals, List.filterMap_cons, h0, hs]
    · simp only [Bool.not_eq_true] at hs
      simp [blockVals, List.filterMap_cons, h0, hs]

/-- On lines that are non-empty and unchanged by stripping, the block
contribution is exactly the sentinel-prefix filter. -/
theorem blockVals_eq_filter (ls : List Str) (h : ∀ n ∈ ls, n ≠ [] ∧ pyStrip n = n) :
    blockVals ls = ls.filter (fun n => !isSentinel n) := by
  induction ls with
  | nil => rfl
  | cons n rest ih =>
    obtain ⟨h1, h2⟩ := h n (by simp)
    have hrest := fun x hx => h x (List.mem_cons_of_mem _ hx)
    rw [blockVals_cons, h2, if_neg h1, List.filter_cons]
    by_cases hs : isSentinel n = true
    · simp [hs, ih hrest]
    · simp only [Bool.not_eq_true] at hs
      simp [hs, ih hrest]

/-! ## Claim C1: writer/parser round trip -/

/-- Well-behavedness of a single name for the exact round trip: non-empty,
no embedded newline, unchanged by stripping, and not starting with the
header marker. -/
def goodName (n : Str) : Prop :=
  n ≠ [] ∧ '\n' ∉ n ∧ pyStrip n = n ∧ ¬ (hdrMark <+: n)

instance (n : Str) : Decidable (goodName n) := by
  unfold goodName; infer_instance

instance (n : Str) : Decidable (LineOk n) := by
  unfold LineOk; infer_instance

theorem goodName_lineOk (n : Str) (h : goodName n) : LineOk n := by
  obtain ⟨_, h2, h3, h4⟩ := h
  exact ⟨h2, by rw [h3]; exact h4⟩

/-- Claim C1 as frozen is false: the report with applications `["Safari"]`
(non-empty, duplicate-free, sorted) and formula list `[""]` — exactly what
the collector produces when `brew list --formula` succeeds with empty
output — does not round-trip: the parser returns `[]` for the formulae,
yet `""` does not begin with either sentinel prefix, so the
sentinel-swallowing caveat does not license dropping it. -/
theorem c1_roundtrip_counterexample :
    (["Safari".toList] : List Str) ≠ [] ∧
      (["Safari".toList] : List Str).Nodup ∧
      (["Safari".toList] : List Str).Pairwise (fun x y => strLt x y = true) ∧
      isSentinel [] = false ∧
      (parseContent (indexContent ["Safari".toList] [[]] [])).formulae = [] ∧
      ([] : List Str) ≠ [[]] := by
  refine ⟨by decide, by decide, by decide, by decide, by decide, by decide⟩

/-- Claim C1, amended: the round trip reproduces the three lists exactly
— modulo dropping names that begin with a sentinel prefix — provided every
name is non-empty, contains no newline, carries no leading or trailing
whitespace, and does not begin with the header marker `"###"`. -/
theorem c1_roundtrip (a f c : List Str) (hne : a ≠ []) (_hnd : a.Nodup)
    (_hsort : a.Pairwise (fun x y => strLt x y = true))
    (hga : ∀ n ∈ a, goodName n) (hgf : ∀ n ∈ f, goodName n)
    (hgc : ∀ n ∈ c, goodName n) :
    parseContent (indexContent a f c) =
      ⟨a.filter (fun n => !isSentinel n),
       f.filter (fun n => !isSentinel n),
       c.filter (fun n => !isSentinel n)⟩ := by
  rw [parse_index a f c (fun n hn => goodName_lineOk n (hga n hn))
    (fun n hn => goodName_lineOk n (hgf n hn)) (fun n hn => goodName_lineOk n (hgc n hn))]
  have hblock : ∀ (ls : List Str) (sent : Str), (∀ n ∈ ls, goodName n) →
      ls ≠ [] → blockVals (sectionLines ls sent) = ls.filter (fun n => !isSentinel n) := by
    intro ls sent hg hne'
    rw [sectionLines, if_neg hne',
      blockVals_eq_filter ls (fun n hn => ⟨(hg n hn).1, (hg n hn).2.2.1⟩)]
  have hblockF : blockVals (sectionLines f sentFormulae) = f.filter (fun n => !isSentinel n) := by
    by_cases hf0 : f = []
    · subst hf0; decide
    · exact hblock f sentFormulae hgf hf0
  have hblockC : blockVals (sectionLines c sentCasks) = c.filter (fun n => !isSentinel n) := by
    by_cases hc0 : c = []
    · subst hc0; decide
    · exact hblock c sentCasks hgc hc0
  rw [hblock a sentApps hga hne, hblockF, hblockC]

/-- Witness for `c1_roundtrip` at a concrete report, exercising the sentinel
caveat (`"No deps"` is swallowed). -/
theorem c1_roundtrip_witness :
    parseContent (indexContent ["Alpha".toList] ["wget".toList, "No deps".toList] []) =
      ⟨["Alpha".toList], ["wget".toList], []⟩ :=
  c1_roundtrip ["Alpha".toList] ["wget".toList, "No deps".toList] []
    (by decide) (by decide) (by decide) (by decide) (by decide) (by decide)

/-! ## Claim C7: sentinel handling for empty sections -/

/-- Claim C7 as frozen is false: in the report with no applications and
formula list `["### macOS Installed Applications ###", "x"]`, the empty
applications section parses back as `["x"]`, not `[]` — the formula name
that contains the header text reactivates the applications section. -/
theorem c7_sentinel_counterexample :
    (parseContent
        (indexContent [] ["### macOS Installed Applications ###".toList, "x".toList] [])).apps
        = ["x".toList] ∧
      ["x".toList] ≠ ([] : List Str) := by
  refine ⟨by decide, by decide⟩

/-- Claim C7, amended: provided no name contains a newline or strips to a
line starting with the header marker `"###"`, every empty section
serializes to exactly its fixed sentinel line and parses back to the empty
list. -/
theorem c7_sentinel (a f c : List Str)
    (ha : ∀ n ∈ a, LineOk n) (hf : ∀ n ∈ f, LineOk n) (hc : ∀ n ∈ c, LineOk n) :
    (a = [] → sectionLines a sentApps = [sentApps] ∧
      (parseContent (indexContent a f c)).apps = []) ∧
    (f = [] → sectionLines f sentFormulae = [sentFormulae] ∧
      (parseContent (indexContent a f c)).formulae = []) ∧
    (c = [] → sectionLines c sentCasks = [sentCasks] ∧
      (parseContent (indexContent a f c)).casks = []) := by
  rw [parse_index a f c ha hf hc]
  refine ⟨fun h0 => ?_, fun h0 => ?_, fun h0 => ?_⟩ <;> subst h0
  · exact ⟨rfl, by show blockVals (sectionLines [] sentApps) = []; decide⟩
  · exact ⟨rfl, by show blockVals (sectionLines [] sentFormulae) = []; decide⟩
  · exact ⟨rfl, by show blockVals (sectionLines [] sentCasks) = []; decide⟩

/-- Witness for `c7_sentinel`: empty applications section with a non-empty
formula list. -/
theorem c7_sentinel_witness :
    sectionLines ([] : List Str) sentApps = [sentApps] ∧
      (parseContent (indexContent [] ["wget".toList] [])).apps = [] :=
  (c7_sentinel [] ["wget".toList] [] (by decide) (by decide) (by decide)).1 rfl


/-! ## Claim C3: bundle-suffix stripping -/

theorem stripAppAll_cons (c : Char) (rest : Str)
    (h : ¬(c = '.' ∧ rest.take 3 = ['a', 'p', 'p'])) :
    stripAppAll (c :: rest) = c :: stripAppAll rest := by
  rw [stripAppAll.eq_def]
  split
  next r heq =>
    exfalso
    apply h
    injection heq with h1 h2
    subst h1; subst h2
    exact ⟨rfl, rfl⟩
  next c' r' hnm h' =>
    injection h' with h1 h2
    subst h1; subst h2
    rfl
  next heq => exact absurd heq (by simp)

theorem containsApp_cons (c : Char) (rest : Str)
    (h : ¬(c = '.' ∧ rest.take 3 = ['a', 'p', 'p'])) :
    containsApp (c :: rest) = containsApp rest := by
  rw [containsApp.eq_def]
  split
  next r heq =>
    exfalso
    apply h
    injection heq with h1 h2
    subst h1; subst h2
    exact ⟨rfl, rfl⟩
  next c' r' hnm h' =>
    injection h' with h1 h2
    subst h1; subst h2
    rfl
  next heq => exact absurd heq (by simp)

theorem containsApp_head (c : Char) (rest : Str)
    (h : c = '.' ∧ rest.take 3 = ['a', 'p', 'p']) :
    containsApp (c :: rest) = true := by
  obtain ⟨h1, h2⟩ := h
  subst h1
  obtain ⟨r, rfl⟩ : ∃ r, rest = 'a' :: 'p' :: 'p' :: r := by
    rcases rest with _ | ⟨x, _ | ⟨y, _ | ⟨z, r⟩⟩⟩ <;> simp_all
  rfl

theorem take3_append (p : Str)
    (h : (p ++ ['.', 'a', 'p', 'p']).take 3 = ['a', 'p', 'p']) :
    p.take 3 = ['a', 'p', 'p'] := by
  rcases p with _ | ⟨x, _ | ⟨y, _ | ⟨z, r⟩⟩⟩ <;> simp_all

/-- `replace(".app", "")` on `p ++ ".app"` yields `p` exactly when `".app"`
does not occur inside `p` itself (an occurrence can never straddle the
boundary, since `'.'` appears in the pattern only at position 0). -/
theorem stripAppAll_append (p : Str) (h : containsApp p = false) :
    stripAppAll (p ++ ['.', 'a', 'p', 'p']) = p := by
  induction p with
  | nil => rfl
  | cons c p ih =>
    have hnm : ¬(c = '.' ∧ p.take 3 = ['a', 'p', 'p']) := by
      intro hm
      rw [containsApp_head c p hm] at h
      exact absurd h (by simp)
    have hp : containsApp p = false := by rw [containsApp_cons c p hnm] at h; exact h
    have hnm2 : ¬(c = '.' ∧ (p ++ ['.', 'a', 'p', 'p']).take 3 = ['a', 'p', 'p']) :=
      fun hm => hnm ⟨hm.1, take3_append p hm.2⟩
    rw [List.cons_append, stripAppAll_cons c _ hnm2, ih hp]

/-- Claim C3 as frozen is false: the entry `"My.app.app"` ends with the
bundle suffix, but the collector maps it to `"My"` — `replace(".app", "")`
also removes the interior `".app"` — whereas removing only the trailing
suffix would give `"My.app"`. -/
theorem c3_strip_counterexample :
    appEntryName "My.app.app".toList = some "My".toList ∧
      "My".toList ≠ "My.app".toList := ⟨by decide, by decide⟩

/-- Claim C3, amended: for a directory entry of the form `p ++ ".app"` in
which `".app"` does not occur before the trailing suffix, the collector
produces exactly `p`, the entry name with the suffix removed; when `".app"`
does occur earlier, every occurrence is removed. -/
theorem c3_strip (p : Str) (h : containsApp p = false) :
    appEntryName (p ++ ".app".toList) = some p := by
  have hsuf : endsWithApp (p ++ ".app".toList) = true := by
    simp [endsWithApp]
  rw [appEntryName, if_pos hsuf]
  have hd : ".app".toList = ['.', 'a', 'p', 'p'] := rfl
  rw [hd, stripAppAll_append p h]

/-- Witness for `c3_strip` at the concrete entry `"Safari.app"`. -/
theorem c3_strip_witness : appEntryName "Safari.app".toList = some "Safari".toList :=
  c3_strip "Safari".toList (by decide)


/-! ## Claim C9: concrete artifact parse -/

/-- Claim C9: the artifact
`"### Homebrew Formulae ###\nwget\ngit\n\n### Homebrew Casks ###\nNo Homebrew... \n"`
parses to apps `[]`, formulae `["wget", "git"]`, casks `[]` (the trailing
sentinel-prefixed line is recognized and discarded). -/
theorem c9_concrete_parse :
    parseContent
        "### Homebrew Formulae ###\nwget\ngit\n\n### Homebrew Casks ###\nNo Homebrew... \n".toList
      = ⟨[], ["wget".toList, "git".toList], []⟩ := by decide

/-! ## Claim C8: fail-soft package queries during indexing -/

/-- Claim C8: when a `brew list` invocation fails — the tool being absent
(`FileNotFoundError`) or the command exiting non-zero
(`CalledProcessError`) — both collectors return the empty list instead of
propagating an error. -/
theorem c8_brew_query_failsoft (r : BrewResult) (h : r = .missing ∨ r = .nonzero) :
    get_brew_packages r = [] ∧ get_brew_casks r = [] := by
  rcases h with h | h <;> subst h <;> exact ⟨rfl, rfl⟩

/-- Witness for `c8_brew_query_failsoft` with the tool absent. -/
theorem c8_brew_query_failsoft_witness :
    get_brew_packages .missing = [] ∧ get_brew_casks .missing = [] :=
  c8_brew_query_failsoft .missing (Or.inl rfl)

/-! ## Claim C10: successful listing with empty output -/

/-- Claim C10: if the `brew list` command succeeds but its stripped output
is empty, the collector returns `[""]` (a one-element list holding the
empty string), the serialized section is that single blank line rather
than the sentinel, and parsing the resulting artifact still yields an
empty list for every section. -/
theorem c10_empty_stdout (out : Str) (h : pyStrip out = []) :
    get_brew_packages (.ok out) = [[]] ∧
      sectionLines (get_brew_packages (.ok out)) sentFormulae = [[]] ∧
      parseContent (indexContent [] (get_brew_packages (.ok out)) []) = ⟨[], [], []⟩ := by
  have h1 : get_brew_packages (.ok out) = [[]] := by
    show pySplitNl (pyStrip out) = [[]]
    rw [h]
    rfl
  rw [h1]
  refine ⟨rfl, by decide, by decide⟩

/-- Witness for `c10_empty_stdout` at stdout `""`. -/
theorem c10_empty_stdout_witness :
    get_brew_packages (.ok []) = [[]] ∧
      sectionLines (get_brew_packages (.ok [])) sentFormulae = [[]] ∧
      parseContent (indexContent [] (get_brew_packages (.ok [])) []) = ⟨[], [], []⟩ :=
  c10_empty_stdout [] rfl

/-! ## Claim C6: fail-open selection -/

/-- Claim C6: when Tkinter is unavailable, or the candidate list is empty,
the Selection Gate returns its input list unchanged, whatever the title
and whatever the human would have chosen. -/
theorem c6_failopen (tk : Bool) (keep : Nat → Bool) (title : Str) (items : List Str)
    (h : tk = false ∨ items = []) :
    select_items_with_tkinter tk keep title items = items := by
  rcases h with h | h <;> subst h <;> simp [select_items_with_tkinter]

/-- Witness for `c6_failopen`: no GUI, and a keep function that would
discard everything, still returns the list unchanged. -/
theorem c6_failopen_witness :
    select_items_with_tkinter false (fun _ => false) [] ["vim".toList] = ["vim".toList] :=
  c6_failopen false (fun _ => false) [] ["vim".toList] (Or.inl rfl)

/-! ## Claim C4: missing restore file -/

/-- Claim C4: when the path is not a regular file, restore mode emits
exactly the file-not-found message and returns — zero install invocations
and no other effects. -/
theorem c4_missing_file (env : RestoreEnv) (fp : Str) (h : env.isfile = false) :
    run_restore_mode env fp = [.printFileNotFound fp] ∧
      installsOf (run_restore_mode env fp) = [] := by
  have h1 : run_restore_mode env fp = [.printFileNotFound fp] := by
    rw [run_restore_mode, if_pos h]
  exact ⟨h1, by rw [h1]; rfl⟩

/-- Witness for `c4_missing_file` at a concrete environment. -/
theorem c4_missing_file_witness :
    run_restore_mode
        ⟨false, [], false, fun _ => true, fun _ => true, fun _ => .ok, fun _ => .ok⟩
        "/nonexistent/path".toList
      = [.printFileNotFound "/nonexistent/path".toList] ∧
      installsOf
        (run_restore_mode
          ⟨false, [], false, fun _ => true, fun _ => true, fun _ => .ok, fun _ => .ok⟩
          "/nonexistent/path".toList) = [] :=
  c4_missing_file _ _ rfl


/-! ## Claim C5: best-effort install batches -/

/-- Claim C5: in any install batch in which no attempt raises
`FileNotFoundError`, every item in the list is attempted (one
`brew install` invocation per item, in order), the batch never aborts, and
every item whose install exits non-zero is logged as failed. -/
theorem c5_best_effort (inst : Str → InstallOutcome) (ck : Bool) (l : List Str)
    (h : ∀ x ∈ l, inst x ≠ .missing) :
    installsOf (installLoop inst ck l).1 = l.map (fun n => Effect.brewInstall ck n) ∧
      (installLoop inst ck l).2 = false ∧
      ∀ x ∈ l, inst x = .fail → Effect.printFailed ck x ∈ (installLoop inst ck l).1 := by
  induction l with
  | nil => exact ⟨rfl, rfl, by simp⟩
  | cons x rest ih =>
    have hx := h x (by simp)
    have hrest := fun y hy => h y (List.mem_cons_of_mem _ hy)
    obtain ⟨ih1, ih2, ih3⟩ := ih hrest
    cases hins : inst x with
    | ok =>
      refine ⟨?_, ?_, ?_⟩
      · simp [installLoop, hins, installsOf, isInstallEffect, List.filter_cons] at ih1 ⊢
        exact ih1
      · simp [installLoop, hins, ih2]
      · intro y hy hfy
        rcases List.mem_cons.1 hy with rfl | hy'
        · exact absurd hfy (by simp [hins])
        · simp [installLoop, hins]
          exact ih3 y hy' hfy
    | fail =>
      refine ⟨?_, ?_, ?_⟩
      · simp [installLoop, hins, installsOf, isInstallEffect, List.filter_cons] at ih1 ⊢
        exact ih1
      · simp [installLoop, hins, ih2]
      · intro y hy hfy
        rcases List.mem_cons.1 hy with rfl | hy'
        · simp [installLoop, hins]
        · simp [installLoop, hins]
          exact Or.inr (ih3 y hy' hfy)
    | missing => exact absurd hins hx


theorem installLoop_abort_getLast (inst : Str → InstallOutcome) (ck : Bool) (l : List Str)
    (h : (installLoop inst ck l).2 = true) :
    (installLoop inst ck l).1.getLast? = some Effect.printBrewMissing := by
  induction l with
  | nil => exact absurd h (by simp [installLoop])
  | cons x rest ih =>
    cases hins : inst x with
    | ok =>
      simp only [installLoop, hins] at h ⊢
      have h3 := ih h
      rcases hr : (installLoop inst ck rest).1 with _ | ⟨e, es⟩
      · rw [hr] at h3; simp at h3
      · rw [hr] at h3
        simpa using h3
    | fail =>
      simp only [installLoop, hins] at h ⊢
      have h3 := ih h
      rcases hr : (installLoop inst ck rest).1 with _ | ⟨e, es⟩
      · rw [hr] at h3; simp at h3
      · rw [hr] at h3
        simpa using h3
    | missing =>
      simp only [installLoop, hins]
      rfl

theorem installLoop_no_abort_no_missing (inst : Str → InstallOutcome) (ck : Bool) (l : List Str)
    (h : (installLoop inst ck l).2 = false) :
    Effect.printBrewMissing ∉ (installLoop inst ck l).1 := by
  induction l with
  | nil => simp [installLoop]
  | cons x rest ih =>
    cases hins : inst x with
    | ok =>
      simp only [installLoop, hins] at h ⊢
      simpa using ih h
    | fail =>
      simp only [installLoop, hins] at h ⊢
      simpa using ih h
    | missing =>
      simp only [installLoop, hins] at h
      simp at h

theorem installLoop_no_manual (inst : Str → InstallOutcome) (ck : Bool) (l : List Str)
    (ns : List Str) : Effect.printManualApps ns ∉ (installLoop inst ck l).1 := by
  induction l with
  | nil => simp [installLoop]
  | cons x rest ih =>
    cases hins : inst x with
    | ok => simp only [installLoop, hins]; simpa using ih
    | fail => simp only [installLoop, hins]; simpa using ih
    | missing => simp [installLoop, hins]

theorem noteEffects_mem (env : RestoreEnv) (f c : List Str) (e : Effect)
    (h : e ∈ noteEffects env f c) : e = .printTkNote := by
  unfold noteEffects at h
  split at h
  · simpa using h
  · simp at h

theorem manualEffects_mem (apps : List Str) (e : Effect)
    (h : e ∈ manualEffects apps) : e = .printManualApps apps := by
  unfold manualEffects at h
  split at h
  · simp at h
  · simpa using h


theorem formulaBatch_abort_getLast (env : RestoreEnv) (fs : List Str)
    (h : (formulaBatch env fs).2 = true) :
    (formulaBatch env fs).1.getLast? = some Effect.printBrewMissing := by
  by_cases h0 : fs = []
  · rw [h0] at h; exact absurd h (by simp [formulaBatch])
  · rw [formulaBatch, if_neg h0] at h ⊢
    simp only at h ⊢
    have h3 := installLoop_abort_getLast env.installF false fs h
    rcases hr : (installLoop env.installF false fs).1 with _ | ⟨e, es⟩
    · rw [hr] at h3; simp at h3
    · rw [hr] at h3; simpa using h3

theorem formulaBatch_no_missing (env : RestoreEnv) (fs : List Str)
    (h : (formulaBatch env fs).2 = false) :
    Effect.printBrewMissing ∉ (formulaBatch env fs).1 := by
  by_cases h0 : fs = []
  · rw [formulaBatch, if_pos h0]; simp
  · rw [formulaBatch, if_neg h0] at h ⊢
    simp only at h ⊢
    simpa using installLoop_no_abort_no_missing env.installF false fs h

theorem formulaBatch_no_manual (env : RestoreEnv) (fs : List Str) (ns : List Str) :
    Effect.printManualApps ns ∉ (formulaBatch env fs).1 := by
  by_cases h0 : fs = []
  · rw [formulaBatch, if_pos h0]; simp
  · rw [formulaBatch, if_neg h0]
    simp only
    simpa using installLoop_no_manual env.installF false fs ns

theorem caskBatch_abort_getLast (env : RestoreEnv) (cs : List Str)
    (h : (caskBatch env cs).2 = true) :
    (caskBatch env cs).1.getLast? = some Effect.printBrewMissing := by
  by_cases h0 : cs = []
  · rw [h0] at h; exact absurd h (by simp [caskBatch])
  · rw [caskBatch, if_neg h0] at h ⊢
    simp only at h ⊢
    have h3 := installLoop_abort_getLast env.installC true cs h
    rcases hr : (installLoop env.installC true cs).1 with _ | ⟨e, es⟩
    · rw [hr] at h3; simp at h3
    · rw [hr] at h3; simpa using h3

theorem caskBatch_no_missing (env : RestoreEnv) (cs : List Str)
    (h : (caskBatch env cs).2 = false) :
    Effect.printBrewMissing ∉ (caskBatch env cs).1 := by
  by_cases h0 : cs = []
  · rw [caskBatch, if_pos h0]; simp
  · rw [caskBatch, if_neg h0] at h ⊢
    simp only at h ⊢
    simpa using installLoop_no_abort_no_missing env.installC true cs h

theorem caskBatch_no_manual (env : RestoreEnv) (cs : List Str) (ns : List Str) :
    Effect.printManualApps ns ∉ (caskBatch env cs).1 := by
  by_cases h0 : cs = []
  · rw [caskBatch, if_pos h0]; simp
  · rw [caskBatch, if_neg h0]
    simp only
    simpa using installLoop_no_manual env.installC true cs ns


/-- Witness install function for `c5_best_effort`: `"b"` fails, others
succeed. -/
def instBFails : Str → InstallOutcome :=
  fun s => if s = "b".toList then .fail else .ok

/-- Witness for `c5_best_effort` on formulae `["a", "b", "c"]` with `"b"`
failing: all three are attempted, the batch does not abort, and `"b"` is
reported as failed. -/
theorem c5_best_effort_witness :
    installsOf (installLoop instBFails false ["a".toList, "b".toList, "c".toList]).1 =
      [Effect.brewInstall false "a".toList, Effect.brewInstall false "b".toList,
       Effect.brewInstall false "c".toList] ∧
      (installLoop instBFails false ["a".toList, "b".toList, "c".toList]).2 = false ∧
      ∀ x ∈ ["a".toList, "b".toList, "c".toList], instBFails x = .fail →
        Effect.printFailed false x ∈
          (installLoop instBFails false ["a".toList, "b".toList, "c".toList]).1 :=
  c5_best_effort instBFails false ["a".toList, "b".toList, "c".toList] (by decide)

/-! ## Claim C2: tool-missing abort during restore -/

theorem c2_abort (env : RestoreEnv) (fp : Str)
    (h : Effect.printBrewMissing ∈ run_restore_mode env fp) :
    (run_restore_mode env fp).getLast? = some Effect.printBrewMissing ∧
      ∀ ns, Effect.printManualApps ns ∉ run_restore_mode env fp := by
  by_cases hf : env.isfile = false
  · rw [run_restore_mode, if_pos hf] at h
    simp at h
  · rw [run_restore_mode, if_neg hf] at h ⊢
    rw [restoreBody] at h ⊢
    by_cases hab : (formulaBatch env (selectedFormulae env (parseContent env.content).formulae)).2 = true
    · rw [if_pos hab] at h ⊢
      have hlast := formulaBatch_abort_getLast env _ hab
      constructor
      · rcases hr : (formulaBatch env (selectedFormulae env (parseContent env.content).formulae)).1
          with _ | ⟨e, es⟩
        · rw [hr] at hlast; simp at hlast
        · rw [hr] at hlast
          have hshape : Effect.printParsing fp ::
              (noteEffects env (parseContent env.content).formulae (parseContent env.content).casks ++
                (e :: es) ++ []) =
              ([Effect.printParsing fp] ++
                noteEffects env (parseContent env.content).formulae (parseContent env.content).casks) ++
                (e :: es) := by simp
          rw [hshape, List.getLast?_append, hlast]
          rfl
      · intro ns hmem
        simp only [List.append_nil, List.mem_cons, List.mem_append] at hmem
        rcases hmem with hmem | hmem | hmem
        · exact absurd hmem (by simp)
        · exact absurd (noteEffects_mem _ _ _ _ hmem) (by simp)
        · exact formulaBatch_no_manual env _ ns hmem
    · rw [if_neg hab] at h ⊢
      have hab2 : (formulaBatch env (selectedFormulae env (parseContent env.content).formulae)).2 = false :=
        by simpa using hab
      by_cases hcb : (caskBatch env (selectedCasks env (parseContent env.content).casks)).2 = true
      · rw [if_pos hcb] at h ⊢
        have hlast := caskBatch_abort_getLast env _ hcb
        constructor
        · rcases hr : (caskBatch env (selectedCasks env (parseContent env.content).casks)).1
            with _ | ⟨e, es⟩
          · rw [hr] at hlast; simp at hlast
          · rw [hr] at hlast
            have hshape : Effect.printParsing fp ::
                (noteEffects env (parseContent env.content).formulae (parseContent env.content).casks ++
                  (formulaBatch env (selectedFormulae env (parseContent env.content).formulae)).1 ++
                  ((e :: es) ++ [])) =
                (Effect.printParsing fp ::
                  (noteEffects env (parseContent env.content).formulae (parseContent env.content).casks ++
                    (formulaBatch env (selectedFormulae env (parseContent env.content).formulae)).1)) ++
                  (e :: es) := by simp
            rw [hshape, List.getLast?_append, hlast]
            rfl
        · intro ns hmem
          simp only [List.append_nil, List.mem_cons, List.mem_append] at hmem
          rcases hmem with hmem | ((hmem | hmem) | hmem)
          · exact absurd hmem (by simp)
          · exact absurd (noteEffects_mem _ _ _ _ hmem) (by simp)
          · exact formulaBatch_no_manual env _ ns hmem
          · exact caskBatch_no_manual env _ ns hmem
      · rw [if_neg hcb] at h
        have hcb2 : (caskBatch env (selectedCasks env (parseContent env.content).casks)).2 = false :=
          by simpa using hcb
        exfalso
        simp only [List.mem_cons, List.mem_append, List.not_mem_nil, or_false] at h
        rcases h with h | ((h | h) | (h | (h | h)))
        · exact absurd h (by simp)
        · exact absurd (noteEffects_mem _ _ _ _ h) (by simp)
        · exact formulaBatch_no_missing env _ hab2 h
        · exact caskBatch_no_missing env _ hcb2 h
        · exact absurd (manualEffects_mem _ _ h) (by simp)
        · exact absurd h (by simp)


/-- A restore environment whose inventory file lists application `"Safari"`
and formula `"wget"`, with Tkinter unavailable and the `brew` executable
absent. -/
def envBrewMissing : RestoreEnv :=
  ⟨true,
   "### macOS Installed Applications ###\nSafari\n\n### Homebrew Formulae ###\nwget\n".toList,
   false, fun _ => true, fun _ => true, fun _ => .missing, fun _ => .ok⟩

/-- Claim C2 as frozen is false: with `brew` absent, restore mode emits the
tool-missing error and returns immediately — the application names are
*not* echoed afterwards (no manual-action list appears anywhere in the
trace), even though the parsed inventory contains `"Safari"`. -/
theorem c2_counterexample :
    run_restore_mode envBrewMissing "list.txt".toList =
      [.printParsing "list.txt".toList, .printTkNote, .printFormulaeHeader,
       .printInstalling false "wget".toList, .brewInstall false "wget".toList,
       .printBrewMissing] ∧
      (parseContent envBrewMissing.content).apps = ["Safari".toList] ∧
      ∀ ns, Effect.printManualApps ns ∉ run_restore_mode envBrewMissing "list.txt".toList := by
  have h1 : run_restore_mode envBrewMissing "list.txt".toList =
      [.printParsing "list.txt".toList, .printTkNote, .printFormulaeHeader,
       .printInstalling false "wget".toList, .brewInstall false "wget".toList,
       .printBrewMissing] := by decide
  refine ⟨h1, by decide, ?_⟩
  intro ns
  rw [h1]
  simp

/-- Witness for `c2_abort` at `envBrewMissing`. -/
theorem c2_abort_witness :
    Effect.printBrewMissing ∈ run_restore_mode envBrewMissing "list.txt".toList ∧
      ((run_restore_mode envBrewMissing "list.txt".toList).getLast? =
          some Effect.printBrewMissing ∧
        ∀ ns, Effect.printManualApps ns ∉ run_restore_mode envBrewMissing "list.txt".toList) :=
  ⟨by decide, c2_abort envBrewMissing "list.txt".toList (by decide)⟩

end MacosAppIndex


